import Mathlib

/-!
Shallow embedding of the RingBuffer class from
src/AudioMirror/RingBuffer.h and src/AudioMirror/RingBuffer.cpp.

Modelling conventions.

* Bytes are modelled as Nat values; the byte region m_Buffer is a List Nat
  (the empty list plays the role of a NULL pointer).
* SIZE_T and ULONGLONG quantities are modelled as Nat.  The position counters
  m_LinearBufferReadPosition and m_LinearBufferWritePosition are monotonically
  increasing 64-bit counters in the source; on the states the theorems below
  quantify over (readPos <= writePos) no unsigned wrap is ever exercised, so
  Nat arithmetic agrees with the unsigned machine arithmetic.
* The spin lock m_BufferLock, m_SpinLockIrql and the DbgPrintEx / DPF tracing
  are not modelled: they do not affect the sequential data behaviour.
* RtlCopyMemory into the storage is modelled by writeRun (contiguous list
  update); the while loops of Put and Take are modelled by copyLoopAux and
  takeLoopAux, structurally recursive on a fuel argument instantiated with the
  total byte count, which bounds the iteration count of the C loops (each
  iteration of the C loop consumes at least one byte whenever the offset is
  below the buffer length; fuel exhaustion corresponds to the one situation,
  unreachable from the call sites, in which the C loop would not terminate).
  Note that the copy loop of Put never advances the source pointer: line 83
  passes pBytes itself to every RtlCopyMemory call (unlike Take, which
  advances its destination by bytesRead at line 118), so a wrapped second run
  re-copies the first bytes of pBytes; copyLoopAux reproduces this.
* ExAllocatePoolWithTag returns uninitialised memory; Init therefore takes the
  allocation result as an explicit parameter: none models allocation failure,
  some contents models success with arbitrary initial contents.  Lazy
  allocation of the spin lock (lines 32-37) is modelled as always succeeding.
* Take writes the transferred count through an optional out pointer; the model
  returns the value that the source stores through a non-null readCount
  pointer.
-/

/-- Status codes returned by the source (NTSTATUS values actually used). -/
inductive NTSTATUS where
  | success
  | bufferTooSmall
  | bufferOverflow
  | deviceNotReady
  | insufficientResources
  deriving DecidableEq, Repr

/-- The RingBuffer data members (RingBuffer.h lines 9-14). -/
structure RingBuffer where
  m_Buffer : List Nat
  m_BufferLength : Nat
  m_LinearBufferReadPosition : Nat
  m_LinearBufferWritePosition : Nat
  m_IsFilling : Bool
  deriving DecidableEq, Repr

/-- The default constructor (RingBuffer.cpp lines 5-9). -/
def RingBuffer.initial : RingBuffer :=
  { m_Buffer := []
    m_BufferLength := 0
    m_LinearBufferReadPosition := 0
    m_LinearBufferWritePosition := 0
    m_IsFilling := true }

/-- One RtlCopyMemory run into the storage: writes the given bytes at
consecutive indices starting at the given offset. -/
def writeRun : List Nat → Nat → List Nat → List Nat
  | storage, _, [] => storage
  | storage, offset, b :: rest => writeRun (storage.set offset b) (offset + 1) rest

/-- The copy loop of Put (RingBuffer.cpp lines 79-87), returning the updated
storage together with bytesWritten.  The loop variable count decreases while
the source list pBytes stays fixed: line 83 hands pBytes, not an advanced
pointer, to RtlCopyMemory on every iteration, so each run copies the FIRST
runWrite bytes of pBytes.  Structural recursion on fuel; each C iteration
consumes at least one byte of count, so fuel = initial count is exact. -/
def copyLoopAux : Nat → List Nat → Nat → Nat → List Nat → Nat → List Nat × Nat
  | 0, storage, _, _, _, _ => (storage, 0)
  | fuel + 1, storage, bufferLength, bufferOffset, pBytes, count =>
    if count = 0 then (storage, 0)
    else
      let runWrite := min count (bufferLength - bufferOffset)
      if runWrite = 0 then (storage, 0)
      else
        let res := copyLoopAux fuel (writeRun storage bufferOffset (pBytes.take runWrite))
          bufferLength ((bufferOffset + runWrite) % bufferLength) pBytes (count - runWrite)
        (res.1, runWrite + res.2)

/-- The copy loop of Take (RingBuffer.cpp lines 114-122), returning the bytes
written to pTarget together with bytesRead. -/
def takeLoopAux (storage : List Nat) (bufferLength : Nat) :
    Nat → Nat → Nat → List Nat × Nat
  | 0, _, _ => ([], 0)
  | fuel + 1, bufferOffset, count =>
    if count = 0 then ([], 0)
    else
      let runWrite := min count (bufferLength - bufferOffset)
      if runWrite = 0 then ([], 0)
      else
        let res := takeLoopAux storage bufferLength fuel
          ((bufferOffset + runWrite) % bufferLength) (count - runWrite)
        ((storage.drop bufferOffset).take runWrite ++ res.1, runWrite + res.2)

/-- RingBuffer::Put (RingBuffer.cpp lines 65-96). -/
def RingBuffer.Put (rb : RingBuffer) (pBytes : List Nat) : NTSTATUS × RingBuffer :=
  let count := pBytes.length
  if rb.m_BufferLength < count then (.bufferTooSmall, rb)
  else if count = 0 then (.success, rb)
  else
    let overrun :=
      rb.m_BufferLength < rb.m_LinearBufferWritePosition + count - rb.m_LinearBufferReadPosition
    let status := if overrun then NTSTATUS.bufferOverflow else NTSTATUS.success
    let readPosition :=
      if overrun then rb.m_LinearBufferWritePosition + count - rb.m_BufferLength + 1
      else rb.m_LinearBufferReadPosition
    let bufferOffset := rb.m_LinearBufferWritePosition % rb.m_BufferLength
    let res := copyLoopAux count rb.m_Buffer rb.m_BufferLength bufferOffset pBytes count
    let writePosition := rb.m_LinearBufferWritePosition + res.2
    let filling :=
      if rb.m_IsFilling ∧ rb.m_BufferLength / 2 < writePosition - readPosition then false
      else rb.m_IsFilling
    (status,
      { m_Buffer := res.1
        m_BufferLength := rb.m_BufferLength
        m_LinearBufferReadPosition := readPosition
        m_LinearBufferWritePosition := writePosition
        m_IsFilling := filling })

/-- The outcome of RingBuffer::Take: status, the bytes stored to pTarget, the
count stored through a non-null readCount pointer, and the new state. -/
structure TakeResult where
  status : NTSTATUS
  pTarget : List Nat
  readCount : Nat
  state : RingBuffer
  deriving DecidableEq, Repr

/-- RingBuffer::Take (RingBuffer.cpp lines 98-136). -/
def RingBuffer.Take (rb : RingBuffer) (count : Nat) : TakeResult :=
  if rb.m_IsFilling then
    { status := .deviceNotReady, pTarget := [], readCount := 0, state := rb }
  else
    let count2 :=
      min count (rb.m_LinearBufferWritePosition - rb.m_LinearBufferReadPosition)
    let bufferOffset := rb.m_LinearBufferReadPosition % rb.m_BufferLength
    let res := takeLoopAux rb.m_Buffer rb.m_BufferLength count2 bufferOffset count2
    let readPosition := rb.m_LinearBufferReadPosition + res.2
    let filling :=
      if rb.m_LinearBufferWritePosition - readPosition = 0 then true else rb.m_IsFilling
    { status := .success
      pTarget := res.1
      readCount := res.2
      state := { rb with
                 m_LinearBufferReadPosition := readPosition
                 m_IsFilling := filling } }

/-- RingBuffer::GetSize (RingBuffer.cpp lines 140-143). -/
def RingBuffer.GetSize (rb : RingBuffer) : Nat := rb.m_BufferLength

/-- RingBuffer::GetAvailableBytes (RingBuffer.cpp lines 145-148). -/
def RingBuffer.GetAvailableBytes (rb : RingBuffer) : Nat :=
  if rb.m_IsFilling then 0
  else rb.m_LinearBufferWritePosition - rb.m_LinearBufferReadPosition

/-- RingBuffer::Clear (RingBuffer.cpp lines 150-160): RtlZeroMemory over
m_BufferLength bytes, positions reset, filling re-armed. -/
def RingBuffer.Clear (rb : RingBuffer) : RingBuffer :=
  { rb with
    m_Buffer := List.replicate rb.m_BufferLength 0
    m_IsFilling := true
    m_LinearBufferReadPosition := 0
    m_LinearBufferWritePosition := 0 }

/-- RingBuffer::Init (RingBuffer.cpp lines 30-63).  The alloc parameter is the
result of ExAllocatePoolWithTag: none is allocation failure, some contents is
success.  An existing storage region is freed first (lines 39-45); note that
m_BufferLength is not reset on that path nor on the failure path. -/
def RingBuffer.Init (rb : RingBuffer) (bufferSize : Nat) (alloc : Option (List Nat)) :
    NTSTATUS × RingBuffer :=
  let rb1 := if rb.m_Buffer = [] then rb else { rb with m_Buffer := [] }
  match alloc with
  | none => (.insufficientResources, rb1)
  | some contents =>
    (.success,
      { m_Buffer := contents
        m_BufferLength := bufferSize
        m_LinearBufferWritePosition := 0
        m_LinearBufferReadPosition := 0
        m_IsFilling := true })

/-- The state right after a successful Init on a fresh buffer. -/
def initState (bufferSize : Nat) (contents : List Nat) : RingBuffer :=
  (RingBuffer.initial.Init bufferSize (some contents)).2

/-- Specification-level wrap-around read of count bytes starting at linear
position pos: byte i comes from storage slot (pos + i) mod bufferLength. -/
def ringRead (storage : List Nat) (bufferLength pos count : Nat) : List Nat :=
  (List.range count).map (fun i => storage.getD ((pos + i) % bufferLength) 0)

/-- An operation of a producer/consumer trace. -/
inductive Op where
  | put : List Nat → Op
  | take : Nat → Op
  deriving DecidableEq, Repr

/-- The concatenation of all bytes put along a trace. -/
def putStream : List Op → List Nat
  | [] => []
  | Op.put bs :: rest => bs ++ putStream rest
  | Op.take _ :: rest => putStream rest

/-- Run a trace of operations; returns the final state and the concatenation
of all bytes delivered by the Take calls. -/
def runOps : RingBuffer → List Op → RingBuffer × List Nat
  | rb, [] => (rb, [])
  | rb, Op.put bs :: rest => runOps (rb.Put bs).2 rest
  | rb, Op.take n :: rest =>
    let r := rb.Take n
    let res := runOps r.state rest
    (res.1, r.pTarget ++ res.2)

/-- The outstanding unread count stays at most cap after every Put of the
trace. -/
def outstandingOk (cap : Nat) : RingBuffer → List Op → Bool
  | _, [] => true
  | rb, Op.put bs :: rest =>
    decide ((rb.Put bs).2.m_LinearBufferWritePosition -
        (rb.Put bs).2.m_LinearBufferReadPosition ≤ cap)
      && outstandingOk cap (rb.Put bs).2 rest
  | rb, Op.take n :: rest => outstandingOk cap (rb.Take n).state rest

/-- States reachable from a successful Init of capacity cap through Put, Take
and Clear. -/
inductive Reachable (cap : Nat) : RingBuffer → Prop where
  | init : ∀ contents : List Nat, contents.length = cap →
      Reachable cap (initState cap contents)
  | put : ∀ (rb : RingBuffer) (bs : List Nat), Reachable cap rb →
      Reachable cap (rb.Put bs).2
  | take : ∀ (rb : RingBuffer) (n : Nat), Reachable cap rb →
      Reachable cap (rb.Take n).state
  | clear : ∀ rb : RingBuffer, Reachable cap rb → Reachable cap rb.Clear

/-- Basic well-formedness of an initialized buffer of capacity cap. -/
def WF (cap : Nat) (rb : RingBuffer) : Prop :=
  rb.m_BufferLength = cap ∧ rb.m_Buffer.length = cap ∧
  rb.m_LinearBufferReadPosition ≤ rb.m_LinearBufferWritePosition ∧
  rb.m_LinearBufferWritePosition - rb.m_LinearBufferReadPosition ≤ cap

/-- Flag invariant (claim C9): whenever the hysteresis gate is open, at least
one unread byte remains. -/
def FlagInv (rb : RingBuffer) : Prop :=
  rb.m_IsFilling = false →
    1 ≤ rb.m_LinearBufferWritePosition - rb.m_LinearBufferReadPosition

theorem getD_set_self (l : List Nat) (i : Nat) (a : Nat) (h : i < l.length) :
    (l.set i a).getD i 0 = a := by
  simp [List.getD_eq_getElem?_getD, List.getElem?_set_self h]

theorem getD_set_ne (l : List Nat) (i j : Nat) (a : Nat) (h : i ≠ j) :
    (l.set i a).getD j 0 = l.getD j 0 := by
  simp [List.getD_eq_getElem?_getD, List.getElem?_set_ne h]

theorem getD_take (l : List Nat) (n i : Nat) (h : i < n) :
    (l.take n).getD i 0 = l.getD i 0 := by
  simp [List.getD_eq_getElem?_getD, List.getElem?_take_of_lt h]

theorem writeRun_length (bytes : List Nat) :
    ∀ (storage : List Nat) (offset : Nat),
      (writeRun storage offset bytes).length = storage.length := by
  induction bytes with
  | nil => intro storage offset; simp [writeRun]
  | cons b rest ih => intro storage offset; simp [writeRun, ih]

theorem writeRun_getD (bytes : List Nat) :
    ∀ (storage : List Nat) (offset : Nat), offset + bytes.length ≤ storage.length →
      ∀ j, (writeRun storage offset bytes).getD j 0 =
        if offset ≤ j ∧ j < offset + bytes.length then bytes.getD (j - offset) 0
        else storage.getD j 0 := by
  induction bytes with
  | nil =>
    intro storage offset _ j
    simp only [writeRun, List.length_nil, Nat.add_zero]
    rw [if_neg (by omega)]
  | cons b rest ih =>
    intro storage offset hlen j
    have hofflt : offset < storage.length := by simp at hlen; omega
    have hlen2 : offset + 1 + rest.length ≤ (storage.set offset b).length := by
      simp at hlen ⊢; omega
    have hih := ih (storage.set offset b) (offset + 1) hlen2 j
    simp only [writeRun]
    rw [hih]
    by_cases h1 : offset + 1 ≤ j ∧ j < offset + 1 + rest.length
    · rw [if_pos h1, if_pos (by simp; omega)]
      have hj : j - offset = (j - (offset + 1)) + 1 := by omega
      rw [hj, List.getD_cons_succ]
    · rw [if_neg h1]
      by_cases h2 : j = offset
      · subst h2
        rw [getD_set_self _ _ _ hofflt, if_pos (by simp)]
        simp
      · rw [getD_set_ne _ _ _ _ (fun he => h2 he.symm), if_neg (by simp; omega)]

theorem ringRead_length (storage : List Nat) (len pos count : Nat) :
    (ringRead storage len pos count).length = count := by
  simp [ringRead]

theorem ringRead_split (storage : List Nat) (len pos a b : Nat) :
    ringRead storage len pos (a + b) =
      ringRead storage len pos a ++ ringRead storage len (pos + a) b := by
  unfold ringRead
  rw [List.range_add, List.map_append, List.map_map]
  congr 1
  apply List.map_congr_left
  intro i _
  simp [Function.comp, Nat.add_assoc]

theorem contiguous_read (storage : List Nat) (len pos runWrite : Nat)
    (hs : storage.length = len) (hlen : 0 < len) (hrun : pos % len + runWrite ≤ len) :
    (storage.drop (pos % len)).take runWrite = ringRead storage len pos runWrite := by
  apply List.ext_getElem
  · simp [ringRead, hs]; omega
  · intro i h1 h2
    have hi : i < runWrite := by
      simp only [List.length_take, List.length_drop, hs] at h1; omega
    have hidx : pos % len + i < len := by omega
    have hilen : i < len := by omega
    have hmod : (pos + i) % len = pos % len + i := by
      rw [Nat.add_mod, Nat.mod_eq_of_lt hilen, Nat.mod_eq_of_lt hidx]
    simp only [ringRead, List.getElem_map, List.getElem_range, List.getElem_take,
      List.getElem_drop]
    rw [hmod, List.getD_eq_getElem storage 0 (by omega)]

theorem copyLoopAux_zero_count (fuel : Nat) (storage : List Nat) (len off : Nat)
    (pBytes : List Nat) : copyLoopAux fuel storage len off pBytes 0 = (storage, 0) := by
  cases fuel <;> simp [copyLoopAux]

theorem copyLoopAux_single_run :
    ∀ (fuel : Nat) (storage : List Nat) (len off : Nat) (pBytes : List Nat)
      (count : Nat), count ≤ fuel → 0 < count → count ≤ len - off →
      copyLoopAux fuel storage len off pBytes count =
        (writeRun storage off (pBytes.take count), count)
  | 0, _, _, _, _, count, hf, h0, _ => absurd h0 (by omega)
  | fuel + 1, storage, len, off, pBytes, count, hf, h0, hrun => by
    have h1 : ¬ (count = 0) := by omega
    have h2 : min count (len - off) = count := by omega
    simp only [copyLoopAux, h1, if_false, h2, Nat.sub_self]
    rw [copyLoopAux_zero_count]
    simp

theorem copyLoopAux_wrap (fuel : Nat) (storage : List Nat) (len off : Nat)
    (pBytes : List Nat) (count : Nat)
    (hf : count ≤ fuel) (hofflt : off < len) (hwrap : len - off < count)
    (hcl : count ≤ len) :
    copyLoopAux fuel storage len off pBytes count =
      (writeRun (writeRun storage off (pBytes.take (len - off))) 0
        (pBytes.take (count - (len - off))), count) := by
  cases fuel with
  | zero => exact absurd hf (by omega)
  | succ fuel =>
    have h1 : ¬ (count = 0) := by omega
    have h2 : min count (len - off) = len - off := by omega
    have h3 : ¬ (len - off = 0) := by omega
    simp only [copyLoopAux, h1, if_false, h2, h3]
    have hmod : (off + (len - off)) % len = 0 := by
      have hlen2 : off + (len - off) = len := by omega
      rw [hlen2, Nat.mod_self]
    rw [hmod, copyLoopAux_single_run fuel _ len 0 pBytes (count - (len - off))
      (by omega) (by omega) (by omega)]
    have hsum : len - off + (count - (len - off)) = count := by omega
    simp [hsum]

theorem copyLoop_runs_spec (storage : List Nat) (len pos : Nat) (bs : List Nat)
    (hs : storage.length = len) (h0 : bs.length ≠ 0) (hl : bs.length ≤ len) :
    (copyLoopAux bs.length storage len (pos % len) bs bs.length).2 = bs.length ∧
    (copyLoopAux bs.length storage len (pos % len) bs bs.length).1.length = len ∧
    (∀ i, i < bs.length →
      (copyLoopAux bs.length storage len (pos % len) bs bs.length).1.getD
          ((pos + i) % len) 0 =
        (if i < min bs.length (len - pos % len) then bs.getD i 0
         else bs.getD (i - min bs.length (len - pos % len)) 0)) ∧
    (∀ j, (∀ i, i < bs.length → (pos + i) % len ≠ j) →
      (copyLoopAux bs.length storage len (pos % len) bs bs.length).1.getD j 0 =
        storage.getD j 0) := by
  have hlen0 : 0 < len := by omega
  have hofflt : pos % len < len := Nat.mod_lt _ hlen0
  by_cases hwrap : bs.length ≤ len - pos % len
  · have hmin : min bs.length (len - pos % len) = bs.length := by omega
    rw [copyLoopAux_single_run bs.length storage len (pos % len) bs bs.length
      (le_refl _) (by omega) hwrap, List.take_length]
    have hwr := writeRun_getD bs storage (pos % len) (by omega)
    refine ⟨rfl, by rw [writeRun_length]; exact hs, ?_, ?_⟩
    · intro i hi
      have hslot : (pos + i) % len = pos % len + i := by
        rw [Nat.add_mod, Nat.mod_eq_of_lt (show i < len by omega),
          Nat.mod_eq_of_lt (show pos % len + i < len by omega)]
      rw [hslot, hwr (pos % len + i), if_pos (by omega), hmin, if_pos hi]
      congr 1
      omega
    · intro j hj
      rw [hwr j, if_neg]
      intro ⟨hle2, hlt2⟩
      apply hj (j - pos % len) (by omega)
      rw [Nat.add_mod, Nat.mod_eq_of_lt (show j - pos % len < len by omega),
        Nat.mod_eq_of_lt (show pos % len + (j - pos % len) < len by omega)]
      omega
  · have hr1 : len - pos % len < bs.length := by omega
    have hr1pos : 1 ≤ len - pos % len := by omega
    have hmin : min bs.length (len - pos % len) = len - pos % len := by omega
    have htake1 : (bs.take (len - pos % len)).length = len - pos % len := by
      simp [List.length_take]; omega
    have htake2 : (bs.take (bs.length - (len - pos % len))).length =
        bs.length - (len - pos % len) := by
      simp [List.length_take]
    have hs1len : (writeRun storage (pos % len) (bs.take (len - pos % len))).length
        = len := by
      rw [writeRun_length]; exact hs
    rw [copyLoopAux_wrap bs.length storage len (pos % len) bs bs.length
      (le_refl _) hofflt hr1 hl]
    have hwr1 := writeRun_getD (bs.take (len - pos % len)) storage (pos % len)
      (by rw [htake1, hs]; omega)
    have hwr2 := writeRun_getD (bs.take (bs.length - (len - pos % len)))
      (writeRun storage (pos % len) (bs.take (len - pos % len))) 0
      (by rw [htake2, hs1len]; omega)
    refine ⟨rfl, by rw [writeRun_length, writeRun_length]; exact hs, ?_, ?_⟩
    · intro i hi
      rw [hmin]
      by_cases hc : i < len - pos % len
      · have hslot : (pos + i) % len = pos % len + i := by
          rw [Nat.add_mod, Nat.mod_eq_of_lt (show i < len by omega),
            Nat.mod_eq_of_lt (show pos % len + i < len by omega)]
        rw [hslot, hwr2 (pos % len + i), if_neg (by rw [htake2]; omega),
          hwr1 (pos % len + i), if_pos (by rw [htake1]; omega), if_pos hc]
        have harg : pos % len + i - pos % len = i := by omega
        rw [harg, getD_take _ _ _ hc]
      · have hslot : (pos + i) % len = pos % len + i - len := by
          rw [Nat.add_mod, Nat.mod_eq_of_lt (show i < len by omega),
            Nat.mod_eq_sub_mod (show len ≤ pos % len + i by omega),
            Nat.mod_eq_of_lt (show pos % len + i - len < len by omega)]
        rw [hslot, hwr2 (pos % len + i - len), if_pos (by rw [htake2]; omega),
          if_neg hc]
        have harg : pos % len + i - len - 0 = i - (len - pos % len) := by omega
        rw [harg, getD_take _ _ _ (by omega)]
    · intro j hj
      rw [hwr2 j, if_neg, hwr1 j, if_neg]
      · intro ⟨hle2, hlt2⟩
        rw [htake1] at hlt2
        apply hj (j - pos % len) (by omega)
        rw [Nat.add_mod, Nat.mod_eq_of_lt (show j - pos % len < len by omega),
          Nat.mod_eq_of_lt (show pos % len + (j - pos % len) < len by omega)]
        omega
      · intro ⟨hle2, hlt2⟩
        rw [htake2] at hlt2
        apply hj ((len - pos % len) + j) (by omega)
        rw [Nat.add_mod, Nat.mod_eq_of_lt (show (len - pos % len) + j < len by omega),
          Nat.mod_eq_sub_mod (show len ≤ pos % len + ((len - pos % len) + j) by omega),
          Nat.mod_eq_of_lt
            (show pos % len + ((len - pos % len) + j) - len < len by omega)]
        omega

theorem takeLoopAux_spec (storage : List Nat) (len : Nat)
    (hs : storage.length = len) (hlen : 0 < len) :
    ∀ (fuel count pos : Nat), count ≤ fuel →
      takeLoopAux storage len fuel (pos % len) count =
        (ringRead storage len pos count, count) := by
  intro fuel
  induction fuel with
  | zero =>
    intro count pos hc
    have h0 : count = 0 := by omega
    subst h0
    simp [takeLoopAux, ringRead]
  | succ fuel ih =>
    intro count pos hc
    by_cases h0 : count = 0
    · subst h0; simp [takeLoopAux, ringRead]
    · have hofflt : pos % len < len := Nat.mod_lt _ hlen
      set runWrite := min count (len - (pos % len)) with hrw
      have hrun1 : 1 ≤ runWrite := by omega
      have hrunoff : pos % len + runWrite ≤ len := by omega
      have h1 : ¬ (runWrite = 0) := by omega
      have hmod2 : (pos % len + runWrite) % len = (pos + runWrite) % len := by
        rw [Nat.mod_add_mod]
      have hih := ih (count - runWrite) (pos + runWrite) (by omega)
      have hunfold : takeLoopAux storage len (fuel + 1) (pos % len) count =
          ((storage.drop (pos % len)).take runWrite ++
            (takeLoopAux storage len fuel ((pos + runWrite) % len) (count - runWrite)).1,
           runWrite +
            (takeLoopAux storage len fuel ((pos + runWrite) % len) (count - runWrite)).2) := by
        conv_lhs => rw [takeLoopAux]
        simp only [h0, if_false, ← hrw, h1, if_false, hmod2]
      rw [hunfold, hih]
      have hsplit : count = runWrite + (count - runWrite) := by omega
      conv_rhs => rw [hsplit]
      rw [ringRead_split]
      rw [contiguous_read storage len pos runWrite hs hlen hrunoff]

theorem Put_spec (rb : RingBuffer) (bs : List Nat)
    (hb : rb.m_Buffer.length = rb.m_BufferLength)
    (h0 : bs.length ≠ 0) (hcap : bs.length ≤ rb.m_BufferLength) :
    (rb.Put bs).1 = (if rb.m_BufferLength <
        rb.m_LinearBufferWritePosition + bs.length - rb.m_LinearBufferReadPosition
      then NTSTATUS.bufferOverflow else NTSTATUS.success) ∧
    (rb.Put bs).2.m_BufferLength = rb.m_BufferLength ∧
    (rb.Put bs).2.m_Buffer.length = rb.m_BufferLength ∧
    (rb.Put bs).2.m_LinearBufferWritePosition =
      rb.m_LinearBufferWritePosition + bs.length ∧
    (rb.Put bs).2.m_LinearBufferReadPosition = (if rb.m_BufferLength <
        rb.m_LinearBufferWritePosition + bs.length - rb.m_LinearBufferReadPosition
      then rb.m_LinearBufferWritePosition + bs.length - rb.m_BufferLength + 1
      else rb.m_LinearBufferReadPosition) ∧
    (rb.Put bs).2.m_IsFilling = (if rb.m_IsFilling ∧ rb.m_BufferLength / 2 <
        rb.m_LinearBufferWritePosition + bs.length -
          (rb.Put bs).2.m_LinearBufferReadPosition
      then false else rb.m_IsFilling) ∧
    (∀ i, i < bs.length → (rb.Put bs).2.m_Buffer.getD
        ((rb.m_LinearBufferWritePosition + i) % rb.m_BufferLength) 0 =
      (if i < min bs.length (rb.m_BufferLength -
            rb.m_LinearBufferWritePosition % rb.m_BufferLength)
       then bs.getD i 0
       else bs.getD (i - min bs.length (rb.m_BufferLength -
            rb.m_LinearBufferWritePosition % rb.m_BufferLength)) 0)) ∧
    (∀ j, (∀ i, i < bs.length →
        (rb.m_LinearBufferWritePosition + i) % rb.m_BufferLength ≠ j) →
      (rb.Put bs).2.m_Buffer.getD j 0 = rb.m_Buffer.getD j 0) := by
  have hnotlt : ¬ rb.m_BufferLength < bs.length := by omega
  obtain ⟨hn, hlenres, hw, hu⟩ := copyLoop_runs_spec rb.m_Buffer rb.m_BufferLength
    rb.m_LinearBufferWritePosition bs hb h0 hcap
  simp only [RingBuffer.Put, hnotlt, if_false, h0]
  rw [hn]
  repeat' apply And.intro
  all_goals first
    | rfl
    | trivial
    | (exact hw)
    | (exact hu)

theorem Take_spec (rb : RingBuffer) (n : Nat)
    (hb : rb.m_Buffer.length = rb.m_BufferLength)
    (hrw : rb.m_LinearBufferReadPosition ≤ rb.m_LinearBufferWritePosition)
    (hun : rb.m_LinearBufferWritePosition - rb.m_LinearBufferReadPosition ≤
      rb.m_BufferLength)
    (hf : rb.m_IsFilling = false) :
    (rb.Take n).status = NTSTATUS.success ∧
    (rb.Take n).readCount =
      min n (rb.m_LinearBufferWritePosition - rb.m_LinearBufferReadPosition) ∧
    (rb.Take n).pTarget = ringRead rb.m_Buffer rb.m_BufferLength
      rb.m_LinearBufferReadPosition
      (min n (rb.m_LinearBufferWritePosition - rb.m_LinearBufferReadPosition)) ∧
    (rb.Take n).state.m_Buffer = rb.m_Buffer ∧
    (rb.Take n).state.m_BufferLength = rb.m_BufferLength ∧
    (rb.Take n).state.m_LinearBufferWritePosition =
      rb.m_LinearBufferWritePosition ∧
    (rb.Take n).state.m_LinearBufferReadPosition = rb.m_LinearBufferReadPosition +
      min n (rb.m_LinearBufferWritePosition - rb.m_LinearBufferReadPosition) ∧
    ((rb.Take n).state.m_IsFilling = true ↔
      rb.m_LinearBufferWritePosition = rb.m_LinearBufferReadPosition +
        min n (rb.m_LinearBufferWritePosition - rb.m_LinearBufferReadPosition)) := by
  have hloop : takeLoopAux rb.m_Buffer rb.m_BufferLength
      (min n (rb.m_LinearBufferWritePosition - rb.m_LinearBufferReadPosition))
      (rb.m_LinearBufferReadPosition % rb.m_BufferLength)
      (min n (rb.m_LinearBufferWritePosition - rb.m_LinearBufferReadPosition)) =
      (ringRead rb.m_Buffer rb.m_BufferLength rb.m_LinearBufferReadPosition
        (min n (rb.m_LinearBufferWritePosition - rb.m_LinearBufferReadPosition)),
       min n (rb.m_LinearBufferWritePosition - rb.m_LinearBufferReadPosition)) := by
    by_cases hlen : 0 < rb.m_BufferLength
    · exact takeLoopAux_spec rb.m_Buffer rb.m_BufferLength hb hlen _ _ _ (le_refl _)
    · have hz : rb.m_BufferLength = 0 := by omega
      have hk : min n (rb.m_LinearBufferWritePosition -
          rb.m_LinearBufferReadPosition) = 0 := by omega
      rw [hk]
      simp [takeLoopAux, ringRead]
  simp only [RingBuffer.Take, hf, Bool.false_eq_true, if_false]
  rw [hloop]
  repeat' apply And.intro
  all_goals try trivial
  all_goals try rfl
  by_cases hc : rb.m_LinearBufferWritePosition -
      (rb.m_LinearBufferReadPosition +
        min n (rb.m_LinearBufferWritePosition - rb.m_LinearBufferReadPosition)) = 0 <;>
    simp only [hc, if_true, if_false, if_pos, if_neg, ite_true, ite_false] <;>
    simp <;> omega

/-- C7: for every buffer state and every Put whose byte count exceeds the
capacity, the call returns bufferTooSmall and changes no state at all; in
particular GetAvailableBytes is unchanged. -/
theorem c7_put_too_large_rejected (rb : RingBuffer) (bs : List Nat)
    (h : rb.m_BufferLength < bs.length) :
    rb.Put bs = (NTSTATUS.bufferTooSmall, rb) ∧
    (rb.Put bs).2.GetAvailableBytes = rb.GetAvailableBytes := by
  have heq : rb.Put bs = (NTSTATUS.bufferTooSmall, rb) := by
    simp [RingBuffer.Put, h]
  exact ⟨heq, by rw [heq]⟩

theorem c7_put_too_large_rejected_witness :
    (initState 2 [0, 0]).m_BufferLength < [1, 2, 3].length ∧
    ((initState 2 [0, 0]).Put [1, 2, 3] = (NTSTATUS.bufferTooSmall, initState 2 [0, 0]) ∧
     ((initState 2 [0, 0]).Put [1, 2, 3]).2.GetAvailableBytes =
       (initState 2 [0, 0]).GetAvailableBytes) :=
  ⟨by decide, c7_put_too_large_rejected (initState 2 [0, 0]) [1, 2, 3] (by decide)⟩

/-- C5: Take on a filling buffer stores 0 to readCount, copies nothing, leaves
the state unchanged and returns deviceNotReady; the condition is transient:
after enough data accumulates (here 60 of 100 bytes) Take succeeds. -/
theorem c5_take_not_ready (rb : RingBuffer) (n : Nat) (hf : rb.m_IsFilling = true) :
    rb.Take n = { status := NTSTATUS.deviceNotReady
                  pTarget := []
                  readCount := 0
                  state := rb } ∧
    ((initState 100 (List.replicate 100 0)).Take 10).status =
      NTSTATUS.deviceNotReady ∧
    (((initState 100 (List.replicate 100 0)).Put
      (List.replicate 60 7)).2.Take 10).status = NTSTATUS.success := by
  refine ⟨?_, by decide, by decide⟩
  simp [RingBuffer.Take, hf]

theorem c5_take_not_ready_witness :
    (initState 8 [0, 0, 0, 0, 0, 0, 0, 0]).m_IsFilling = true ∧
    (initState 8 [0, 0, 0, 0, 0, 0, 0, 0]).Take 3 =
      { status := NTSTATUS.deviceNotReady
        pTarget := []
        readCount := 0
        state := initState 8 [0, 0, 0, 0, 0, 0, 0, 0] } :=
  ⟨by decide, (c5_take_not_ready (initState 8 [0, 0, 0, 0, 0, 0, 0, 0]) 3 (by decide)).1⟩

/-- C8 counterexample: the claim says a failing storage allocation leaves the
buffer with capacity unset (uninitialized state); but after a successful
Init(4), a failing Init(2) leaves m_BufferLength = 4, the previous capacity,
not unset. -/
theorem c8_init_failure_counterexample :
    ((initState 4 [0, 0, 0, 0]).Init 2 none).1 = NTSTATUS.insufficientResources ∧
    ((initState 4 [0, 0, 0, 0]).Init 2 none).2.m_Buffer = [] ∧
    ((initState 4 [0, 0, 0, 0]).Init 2 none).2.m_BufferLength = 4 := by
  decide

/-- C8 (amended): when storage allocation fails, Init returns the
out-of-resources status and leaves the buffer with no storage, all other
fields (m_BufferLength in particular) keeping their prior values, so the
capacity reads as unset only if the buffer was never successfully
initialized; on success Init frees any old storage, installs the new storage
and capacity, and resets writePos = readPos = 0 and isFilling = true. -/
theorem c8_init_amended (rb : RingBuffer) (bufferSize : Nat) (contents : List Nat)
    (hc : contents.length = bufferSize) :
    rb.Init bufferSize none = (NTSTATUS.insufficientResources,
      { rb with m_Buffer := [] }) ∧
    rb.Init bufferSize (some contents) = (NTSTATUS.success,
      { m_Buffer := contents
        m_BufferLength := bufferSize
        m_LinearBufferReadPosition := 0
        m_LinearBufferWritePosition := 0
        m_IsFilling := true }) := by
  constructor
  · obtain ⟨b, len, r, w, f⟩ := rb
    by_cases h : b = []
    · subst h
      simp [RingBuffer.Init]
    · simp [RingBuffer.Init, h]
  · simp [RingBuffer.Init]

theorem c8_init_amended_witness :
    ([0, 0, 0].length = 3) ∧
    ((initState 4 [0, 0, 0, 0]).Init 3 none = (NTSTATUS.insufficientResources,
      { initState 4 [0, 0, 0, 0] with m_Buffer := [] }) ∧
     (initState 4 [0, 0, 0, 0]).Init 3 (some [0, 0, 0]) = (NTSTATUS.success,
      { m_Buffer := [0, 0, 0]
        m_BufferLength := 3
        m_LinearBufferReadPosition := 0
        m_LinearBufferWritePosition := 0
        m_IsFilling := true })) :=
  ⟨by decide, c8_init_amended (initState 4 [0, 0, 0, 0]) 3 [0, 0, 0] (by decide)⟩

/-- C3: a Put on a filling buffer flips isFilling to false exactly when the
new unread count strictly exceeds capacity / 2 (reaching exactly half does
not); the flag is a one-way latch under Put; putting exactly 50 bytes into a
fresh capacity-100 buffer leaves it filling with GetAvailableBytes 0 and Take
returning deviceNotReady. -/
theorem c3_fill_threshold (rb : RingBuffer) (bs : List Nat)
    (hb : rb.m_Buffer.length = rb.m_BufferLength)
    (hfill : rb.m_IsFilling = true) (hne : bs.length ≠ 0)
    (hcap : bs.length ≤ rb.m_BufferLength) :
    ((rb.Put bs).2.m_IsFilling = false ↔
      rb.m_BufferLength / 2 < (rb.Put bs).2.m_LinearBufferWritePosition -
        (rb.Put bs).2.m_LinearBufferReadPosition) ∧
    (∀ (rb2 : RingBuffer) (bs2 : List Nat), rb2.m_IsFilling = false →
      (rb2.Put bs2).2.m_IsFilling = false) ∧
    ((initState 100 (List.replicate 100 0)).Put
      (List.replicate 50 7)).2.m_IsFilling = true ∧
    ((initState 100 (List.replicate 100 0)).Put
      (List.replicate 50 7)).2.GetAvailableBytes = 0 ∧
    (((initState 100 (List.replicate 100 0)).Put
      (List.replicate 50 7)).2.Take 10).status = NTSTATUS.deviceNotReady := by
  obtain ⟨-, -, -, h4, -, h6, -, -⟩ := Put_spec rb bs hb hne hcap
  refine ⟨?_, ?_, by decide, by decide, by decide⟩
  · rw [h6, hfill, h4]
    by_cases hc : rb.m_BufferLength / 2 < rb.m_LinearBufferWritePosition +
        bs.length - (rb.Put bs).2.m_LinearBufferReadPosition
    · simp [hc]
    · simp [hc]
  · intro rb2 bs2 hf2
    by_cases hA : rb2.m_BufferLength < bs2.length
    · simp [RingBuffer.Put, hA, hf2]
    · by_cases hB : bs2.length = 0
      · simp [RingBuffer.Put, hA, hB, hf2]
      · simp [RingBuffer.Put, hA, hB, hf2]

theorem c3_fill_threshold_witness :
    ((initState 4 [0, 0, 0, 0]).Put [5]).2.m_IsFilling = false ↔
      (initState 4 [0, 0, 0, 0]).m_BufferLength / 2 <
        ((initState 4 [0, 0, 0, 0]).Put [5]).2.m_LinearBufferWritePosition -
          ((initState 4 [0, 0, 0, 0]).Put [5]).2.m_LinearBufferReadPosition :=
  (c3_fill_threshold (initState 4 [0, 0, 0, 0]) [5] (by decide) (by decide)
    (by decide) (by decide)).1

/-- C2 (amended): an overflow-triggering Put (0 < count <= capacity and
writePos + count - readPos > capacity) advances readPos to
writePos + count - capacity + 1, still performs count bytes of copying,
advances writePos by count, returns bufferOverflow, and leaves capacity - 1
unread bytes.  The newly written region receives the input bytes in put
order whenever the copy does not wrap (the single-run case, where the
placement formula below reduces to bs.getD i); when the copy wraps, the
second run re-copies the first bytes of the input instead of the remainder
(RingBuffer.cpp line 83 never advances pBytes), which the placement formula
states exactly.  Concretely with capacity 100, putting 100 bytes then 10
more (both copies single-run) returns bufferOverflow and leaves 99 readable
bytes: the most recent 89 of the first 100 followed by the 10 new ones. -/
theorem c2_put_overflow (rb : RingBuffer) (bs : List Nat)
    (hb : rb.m_Buffer.length = rb.m_BufferLength)
    (hrw : rb.m_LinearBufferReadPosition ≤ rb.m_LinearBufferWritePosition)
    (hne : bs.length ≠ 0) (hcap : bs.length ≤ rb.m_BufferLength)
    (hover : rb.m_BufferLength <
      rb.m_LinearBufferWritePosition + bs.length - rb.m_LinearBufferReadPosition) :
    (rb.Put bs).1 = NTSTATUS.bufferOverflow ∧
    (rb.Put bs).2.m_LinearBufferReadPosition =
      rb.m_LinearBufferWritePosition + bs.length - rb.m_BufferLength + 1 ∧
    (rb.Put bs).2.m_LinearBufferWritePosition =
      rb.m_LinearBufferWritePosition + bs.length ∧
    (∀ i, i < bs.length → (rb.Put bs).2.m_Buffer.getD
      ((rb.m_LinearBufferWritePosition + i) % rb.m_BufferLength) 0 =
      (if i < min bs.length (rb.m_BufferLength -
            rb.m_LinearBufferWritePosition % rb.m_BufferLength)
       then bs.getD i 0
       else bs.getD (i - min bs.length (rb.m_BufferLength -
            rb.m_LinearBufferWritePosition % rb.m_BufferLength)) 0)) ∧
    (rb.Put bs).2.m_LinearBufferWritePosition -
      (rb.Put bs).2.m_LinearBufferReadPosition = rb.m_BufferLength - 1 ∧
    ((initState 100 (List.replicate 100 0)).Put (List.range 100)).1 =
      NTSTATUS.success ∧
    (((initState 100 (List.replicate 100 0)).Put (List.range 100)).2.Put
      ((List.range 10).map (fun i => 100 + i))).1 = NTSTATUS.bufferOverflow ∧
    (((initState 100 (List.replicate 100 0)).Put (List.range 100)).2.Put
      ((List.range 10).map (fun i => 100 + i))).2.GetAvailableBytes = 99 ∧
    ((((initState 100 (List.replicate 100 0)).Put (List.range 100)).2.Put
      ((List.range 10).map (fun i => 100 + i))).2.Take 99).pTarget =
      (List.range 100).drop 11 ++ (List.range 10).map (fun i => 100 + i) := by
  obtain ⟨h1, h2, h3, h4, h5, h6, h7, h8⟩ := Put_spec rb bs hb hne hcap
  refine ⟨by rw [h1, if_pos hover], by rw [h5, if_pos hover], h4, h7, ?_,
    by decide, by decide, by decide, by decide⟩
  rw [h4, h5, if_pos hover]
  omega

theorem c2_put_overflow_witness :
    (((initState 4 [9, 9, 9, 9]).Put [1, 2, 3, 4]).2.Put [5, 6]).1 =
      NTSTATUS.bufferOverflow ∧
    (((initState 4 [9, 9, 9, 9]).Put [1, 2, 3, 4]).2.Put
      [5, 6]).2.m_LinearBufferReadPosition = 3 :=
  have hmain := c2_put_overflow ((initState 4 [9, 9, 9, 9]).Put [1, 2, 3, 4]).2
    [5, 6] (by decide) (by decide) (by decide) (by decide) (by decide)
  ⟨hmain.1, hmain.2.1⟩

/-- C4: Take on a non-filling buffer clamps the request to the unread count,
returns exactly those bytes in FIFO storage order, advances readPos by the
transferred count, reports that count through readCount, returns success even
when more was requested than available, and re-arms isFilling exactly when
the unread count reaches 0. -/
theorem c4_take_success (rb : RingBuffer) (n : Nat)
    (hb : rb.m_Buffer.length = rb.m_BufferLength)
    (hrw : rb.m_LinearBufferReadPosition ≤ rb.m_LinearBufferWritePosition)
    (hun : rb.m_LinearBufferWritePosition - rb.m_LinearBufferReadPosition ≤
      rb.m_BufferLength)
    (hf : rb.m_IsFilling = false) :
    (rb.Take n).status = NTSTATUS.success ∧
    (rb.Take n).readCount =
      min n (rb.m_LinearBufferWritePosition - rb.m_LinearBufferReadPosition) ∧
    (rb.Take n).pTarget = ringRead rb.m_Buffer rb.m_BufferLength
      rb.m_LinearBufferReadPosition
      (min n (rb.m_LinearBufferWritePosition - rb.m_LinearBufferReadPosition)) ∧
    (rb.Take n).pTarget.length = (rb.Take n).readCount ∧
    (rb.Take n).state.m_LinearBufferReadPosition = rb.m_LinearBufferReadPosition +
      min n (rb.m_LinearBufferWritePosition - rb.m_LinearBufferReadPosition) ∧
    (rb.Take n).state.m_LinearBufferWritePosition =
      rb.m_LinearBufferWritePosition ∧
    ((rb.Take n).state.m_IsFilling = true ↔
      (rb.Take n).state.m_LinearBufferWritePosition -
        (rb.Take n).state.m_LinearBufferReadPosition = 0) := by
  obtain ⟨h1, h2, h3, h4, h5, h6, h7, h8⟩ := Take_spec rb n hb hrw hun hf
  have hk : min n (rb.m_LinearBufferWritePosition -
      rb.m_LinearBufferReadPosition) ≤
      rb.m_LinearBufferWritePosition - rb.m_LinearBufferReadPosition :=
    Nat.min_le_right _ _
  refine ⟨h1, h2, h3, ?_, h7, h6, ?_⟩
  · rw [h3, h2, ringRead_length]
  · rw [h8, h6, h7]
    constructor
    · intro h
      omega
    · intro h
      omega

theorem c4_take_success_witness :
    (((initState 4 [0, 0, 0, 0]).Put [1, 2, 3]).2.Take 7).status =
      NTSTATUS.success ∧
    (((initState 4 [0, 0, 0, 0]).Put [1, 2, 3]).2.Take 7).readCount = 3 :=
  have hmain := c4_take_success ((initState 4 [0, 0, 0, 0]).Put [1, 2, 3]).2 7
    (by decide) (by decide) (by decide) (by decide)
  ⟨hmain.1, hmain.2.1⟩

theorem put_no_change_cases (rb : RingBuffer) (bs : List Nat)
    (h : rb.m_BufferLength < bs.length ∨ bs.length = 0) : (rb.Put bs).2 = rb := by
  rcases h with h | h
  · simp [RingBuffer.Put, h]
  · by_cases hA : rb.m_BufferLength < bs.length
    · simp [RingBuffer.Put, hA]
    · simp [RingBuffer.Put, hA, h]

theorem take_filling_no_change (rb : RingBuffer) (n : Nat)
    (hf : rb.m_IsFilling = true) : (rb.Take n).state = rb := by
  simp [RingBuffer.Take, hf]

theorem WF_put (cap : Nat) (rb : RingBuffer) (bs : List Nat) (h : WF cap rb) :
    WF cap (rb.Put bs).2 := by
  obtain ⟨h1, h2, h3, h4⟩ := h
  by_cases hA : rb.m_BufferLength < bs.length
  · rw [put_no_change_cases rb bs (Or.inl hA)]
    exact ⟨h1, h2, h3, h4⟩
  · by_cases hB : bs.length = 0
    · rw [put_no_change_cases rb bs (Or.inr hB)]
      exact ⟨h1, h2, h3, h4⟩
    · have hb : rb.m_Buffer.length = rb.m_BufferLength := by rw [h2, h1]
      obtain ⟨p1, p2, p3, p4, p5, p6, p7, p8⟩ :=
        Put_spec rb bs hb hB (by omega)
      refine ⟨by rw [p2, h1], by rw [p3, h1], ?_, ?_⟩
      · rw [p4, p5]
        by_cases hover : rb.m_BufferLength < rb.m_LinearBufferWritePosition +
            bs.length - rb.m_LinearBufferReadPosition
        · rw [if_pos hover]; omega
        · rw [if_neg hover]; omega
      · rw [p4, p5]
        by_cases hover : rb.m_BufferLength < rb.m_LinearBufferWritePosition +
            bs.length - rb.m_LinearBufferReadPosition
        · rw [if_pos hover]; omega
        · rw [if_neg hover]; omega

theorem WF_take (cap : Nat) (rb : RingBuffer) (n : Nat) (h : WF cap rb) :
    WF cap (rb.Take n).state := by
  obtain ⟨h1, h2, h3, h4⟩ := h
  by_cases hf : rb.m_IsFilling = true
  · rw [take_filling_no_change rb n hf]
    exact ⟨h1, h2, h3, h4⟩
  · have hf' : rb.m_IsFilling = false := by
      cases hB : rb.m_IsFilling
      · rfl
      · exact absurd hB hf
    have hb : rb.m_Buffer.length = rb.m_BufferLength := by rw [h2, h1]
    obtain ⟨t1, t2, t3, t4, t5, t6, t7, t8⟩ := Take_spec rb n hb h3 (by omega) hf'
    have hk : min n (rb.m_LinearBufferWritePosition -
        rb.m_LinearBufferReadPosition) ≤
        rb.m_LinearBufferWritePosition - rb.m_LinearBufferReadPosition :=
      Nat.min_le_right _ _
    refine ⟨by rw [t5, h1], by rw [t4, h2], ?_, ?_⟩
    · rw [t6, t7]; omega
    · rw [t6, t7]; omega

theorem WF_clear (cap : Nat) (rb : RingBuffer) (h : WF cap rb) :
    WF cap rb.Clear := by
  obtain ⟨h1, h2, h3, h4⟩ := h
  exact ⟨h1, by simp [RingBuffer.Clear, h1], by simp [RingBuffer.Clear],
    by simp [RingBuffer.Clear]⟩

theorem WF_initState (cap : Nat) (contents : List Nat) (hc : contents.length = cap) :
    WF cap (initState cap contents) :=
  ⟨rfl, hc, Nat.le_refl 0, by simp [initState, RingBuffer.Init, RingBuffer.initial]⟩

theorem reachable_wf (cap : Nat) (rb : RingBuffer) (h : Reachable cap rb) :
    WF cap rb := by
  induction h with
  | init contents hc => exact WF_initState cap contents hc
  | put rb bs _ ih => exact WF_put cap rb bs ih
  | take rb n _ ih => exact WF_take cap rb n ih
  | clear rb _ ih => exact WF_clear cap rb ih

theorem FlagInv_put (cap : Nat) (rb : RingBuffer) (bs : List Nat)
    (hwf : WF cap rb) (hcap2 : 2 ≤ cap) (hfi : FlagInv rb) :
    FlagInv (rb.Put bs).2 := by
  obtain ⟨h1, h2, h3, h4⟩ := hwf
  by_cases hA : rb.m_BufferLength < bs.length
  · rw [put_no_change_cases rb bs (Or.inl hA)]
    exact hfi
  · by_cases hB : bs.length = 0
    · rw [put_no_change_cases rb bs (Or.inr hB)]
      exact hfi
    · have hb : rb.m_Buffer.length = rb.m_BufferLength := by rw [h2, h1]
      obtain ⟨p1, p2, p3, p4, p5, p6, p7, p8⟩ :=
        Put_spec rb bs hb hB (by omega)
      intro hnew
      rw [p4, p5]
      cases hF : rb.m_IsFilling with
      | false =>
        have hone := hfi hF
        by_cases hover : rb.m_BufferLength < rb.m_LinearBufferWritePosition +
            bs.length - rb.m_LinearBufferReadPosition
        · rw [if_pos hover]; omega
        · rw [if_neg hover]; omega
      | true =>
        by_cases hcnd : rb.m_BufferLength / 2 <
            rb.m_LinearBufferWritePosition + bs.length -
              (rb.Put bs).2.m_LinearBufferReadPosition
        · rw [p5] at hcnd
          have hhalf : 1 ≤ rb.m_BufferLength / 2 := by
            rw [h1]; omega
          by_cases hover : rb.m_BufferLength < rb.m_LinearBufferWritePosition +
              bs.length - rb.m_LinearBufferReadPosition
          · rw [if_pos hover]
            rw [if_pos hover] at hcnd
            omega
          · rw [if_neg hover]
            rw [if_neg hover] at hcnd
            omega
        · exfalso
          rw [p6, hF] at hnew
          rw [if_neg ?_] at hnew
          · exact Bool.true_eq_false.mp hnew
          · intro ⟨_, hc2⟩
            exact hcnd hc2

theorem FlagInv_take (cap : Nat) (rb : RingBuffer) (n : Nat)
    (hwf : WF cap rb) (hfi : FlagInv rb) : FlagInv (rb.Take n).state := by
  obtain ⟨h1, h2, h3, h4⟩ := hwf
  by_cases hf : rb.m_IsFilling = true
  · rw [take_filling_no_change rb n hf]
    exact hfi
  · have hf' : rb.m_IsFilling = false := by
      cases hB : rb.m_IsFilling
      · rfl
      · exact absurd hB hf
    have hb : rb.m_Buffer.length = rb.m_BufferLength := by rw [h2, h1]
    obtain ⟨t1, t2, t3, t4, t5, t6, t7, t8⟩ := Take_spec rb n hb h3 (by omega) hf'
    intro hnew
    rw [t6, t7]
    have hk : min n (rb.m_LinearBufferWritePosition -
        rb.m_LinearBufferReadPosition) ≤
        rb.m_LinearBufferWritePosition - rb.m_LinearBufferReadPosition :=
      Nat.min_le_right _ _
    have hne : ¬ (rb.m_LinearBufferWritePosition = rb.m_LinearBufferReadPosition +
        min n (rb.m_LinearBufferWritePosition - rb.m_LinearBufferReadPosition)) := by
      intro hc
      have := t8.mpr hc
      rw [hnew] at this
      exact Bool.false_ne_true this
    omega

theorem FlagInv_clear (rb : RingBuffer) : FlagInv rb.Clear := by
  intro h
  simp [RingBuffer.Clear] at h

theorem FlagInv_initState (cap : Nat) (contents : List Nat) :
    FlagInv (initState cap contents) := by
  intro h
  simp [initState, RingBuffer.Init, RingBuffer.initial] at h

theorem reachable_wf_flag (cap : Nat) (hcap2 : 2 ≤ cap) (rb : RingBuffer)
    (h : Reachable cap rb) : WF cap rb ∧ FlagInv rb := by
  induction h with
  | init contents hc => exact ⟨WF_initState cap contents hc, FlagInv_initState cap contents⟩
  | put rb bs _ ih => exact ⟨WF_put cap rb bs ih.1, FlagInv_put cap rb bs ih.1 hcap2 ih.2⟩
  | take rb n _ ih => exact ⟨WF_take cap rb n ih.1, FlagInv_take cap rb n ih.1 ih.2⟩
  | clear rb _ ih => exact ⟨WF_clear cap rb ih.1, FlagInv_clear rb⟩

/-- C6: every state reachable from a successful Init through Put, Take and
Clear satisfies readPos <= writePos and writePos - readPos <= capacity; the
shallow embedding observes only operation boundaries, where the invariant
always holds (the transient mid-Put violation is internal to a single
operation). -/
theorem c6_position_invariant (cap : Nat) (rb : RingBuffer)
    (h : Reachable cap rb) :
    rb.m_LinearBufferReadPosition ≤ rb.m_LinearBufferWritePosition ∧
    rb.m_LinearBufferWritePosition - rb.m_LinearBufferReadPosition ≤ cap := by
  obtain ⟨-, -, h3, h4⟩ := reachable_wf cap rb h
  exact ⟨h3, h4⟩

theorem c6_position_invariant_witness :
    ((initState 4 [0, 0, 0, 0]).Put [1, 2, 3]).2.m_LinearBufferReadPosition ≤
      ((initState 4 [0, 0, 0, 0]).Put [1, 2, 3]).2.m_LinearBufferWritePosition ∧
    ((initState 4 [0, 0, 0, 0]).Put [1, 2, 3]).2.m_LinearBufferWritePosition -
      ((initState 4 [0, 0, 0, 0]).Put [1, 2, 3]).2.m_LinearBufferReadPosition ≤ 4 :=
  c6_position_invariant 4 ((initState 4 [0, 0, 0, 0]).Put [1, 2, 3]).2
    (Reachable.put (initState 4 [0, 0, 0, 0]) [1, 2, 3]
      (Reachable.init [0, 0, 0, 0] (by decide)))

/-- C9 (implicit): for capacity >= 2, every reachable state with the gate
open (isFilling = false) has at least one unread byte; hence
GetAvailableBytes is 0 exactly when filling, and a Take through the open
gate with count >= 1 transfers at least one byte.  For capacity 1 an
overflow-triggering Put breaks this: after two one-byte Puts the gate is
open with 0 unread bytes. -/
theorem c9_gate_open_nonempty (cap : Nat) (rb : RingBuffer)
    (hcap2 : 2 ≤ cap) (h : Reachable cap rb) :
    (rb.m_IsFilling = false →
      1 ≤ rb.m_LinearBufferWritePosition - rb.m_LinearBufferReadPosition) ∧
    (rb.GetAvailableBytes = 0 ↔ rb.m_IsFilling = true) ∧
    (rb.m_IsFilling = false → ∀ n, 1 ≤ n → 1 ≤ (rb.Take n).readCount) ∧
    (((initState 1 [0]).Put [5]).2.Put [6]).2.m_IsFilling = false ∧
    (((initState 1 [0]).Put [5]).2.Put [6]).2.m_LinearBufferWritePosition -
      (((initState 1 [0]).Put [5]).2.Put [6]).2.m_LinearBufferReadPosition = 0 := by
  obtain ⟨hwf, hflag⟩ := reachable_wf_flag cap hcap2 rb h
  obtain ⟨h1, h2, h3, h4⟩ := hwf
  refine ⟨hflag, ?_, ?_, by decide, by decide⟩
  · by_cases hIF : rb.m_IsFilling = true
    · simp [RingBuffer.GetAvailableBytes, hIF]
    · have hIF' : rb.m_IsFilling = false := by
        cases hB : rb.m_IsFilling
        · rfl
        · exact absurd hB hIF
      have hone := hflag hIF'
      simp only [RingBuffer.GetAvailableBytes, hIF', Bool.false_eq_true, if_false]
      constructor
      · intro hz
        omega
      · intro hc
        exact absurd hc (by simp)
  · intro hIF' n hn
    have hb : rb.m_Buffer.length = rb.m_BufferLength := by rw [h2, h1]
    obtain ⟨-, t2, -, -, -, -, -, -⟩ := Take_spec rb n hb h3 (by omega) hIF'
    have hone := hflag hIF'
    rw [t2]
    omega

theorem c9_gate_open_nonempty_witness :
    (initState 4 [0, 0, 0, 0]).GetAvailableBytes = 0 ↔
      (initState 4 [0, 0, 0, 0]).m_IsFilling = true :=
  (c9_gate_open_nonempty 4 (initState 4 [0, 0, 0, 0]) (by decide)
    (Reachable.init [0, 0, 0, 0] (by decide))).2.1


/-- C1: evaluation of the program at a failing trace.  With capacity 4 the
trace Put [1,2,3]; Take 2; Put [4,5,6]; Take 4 keeps the outstanding unread
count at most the capacity and triggers no overflow (both Put calls return
success), yet the concatenated Take outputs are [1, 2, 3, 4, 4, 5] instead
of the put stream prefix [1, 2, 3, 4, 5, 6]: the final Put wraps and its
second copy run re-copies the first bytes of the input, because
RingBuffer.cpp line 83 never advances pBytes (unlike Take, which advances
its destination at line 118), so the FIFO byte stream is not preserved
across a wrapped two-run Put. -/
theorem c1_wrap_bug_eval :
    ((initState 4 [0, 0, 0, 0]).Put [1, 2, 3]).1 = NTSTATUS.success ∧
    ((((initState 4 [0, 0, 0, 0]).Put [1, 2, 3]).2.Take 2).state.Put
      [4, 5, 6]).1 = NTSTATUS.success ∧
    outstandingOk 4 (initState 4 [0, 0, 0, 0])
      [Op.put [1, 2, 3], Op.take 2, Op.put [4, 5, 6], Op.take 4] = true ∧
    (runOps (initState 4 [0, 0, 0, 0])
      [Op.put [1, 2, 3], Op.take 2, Op.put [4, 5, 6], Op.take 4]).2 =
      [1, 2, 3, 4, 4, 5] ∧
    putStream [Op.put [1, 2, 3], Op.take 2, Op.put [4, 5, 6], Op.take 4] =
      [1, 2, 3, 4, 5, 6] ∧
    ¬ ((runOps (initState 4 [0, 0, 0, 0])
        [Op.put [1, 2, 3], Op.take 2, Op.put [4, 5, 6], Op.take 4]).2 =
      (putStream [Op.put [1, 2, 3], Op.take 2, Op.put [4, 5, 6],
        Op.take 4]).take
        ((runOps (initState 4 [0, 0, 0, 0])
          [Op.put [1, 2, 3], Op.take 2, Op.put [4, 5, 6],
            Op.take 4]).1.m_LinearBufferReadPosition)) := by
  decide

/-- C2 counterexample: at the reachable state after Init(4) and Put [1,2,3]
(writePos 3, readPos 0), the Put [10,20,30] is overflow-triggering and its
copy wraps; the original claim would place byte bs[i] at storage slot
(writePos + i) mod capacity for every i < count, but the program puts 10,
the first input byte, at slot (3 + 1) mod 4 = 0 where the claim expects 20:
the wrapped second run re-copies the start of the input. -/
theorem c2_put_overflow_counterexample :
    (((initState 4 [9, 9, 9, 9]).Put [1, 2, 3]).2.Put [10, 20, 30]).1 =
      NTSTATUS.bufferOverflow ∧
    ((((initState 4 [9, 9, 9, 9]).Put [1, 2, 3]).2.Put
      [10, 20, 30]).2.m_Buffer.getD
        ((((initState 4 [9, 9, 9, 9]).Put
          [1, 2, 3]).2.m_LinearBufferWritePosition + 1) % 4) 0 = 10) ∧
    [10, 20, 30].getD 1 0 = 20 ∧
    ¬ (∀ i, i < 3 →
      ((((initState 4 [9, 9, 9, 9]).Put [1, 2, 3]).2.Put
        [10, 20, 30]).2.m_Buffer.getD
          ((((initState 4 [9, 9, 9, 9]).Put
            [1, 2, 3]).2.m_LinearBufferWritePosition + i) % 4) 0 =
        [10, 20, 30].getD i 0)) := by
  decide
